import Mathlib

/-!
Verification of the eduOS-rs scheduler (src/scheduler/scheduler.rs and
src/scheduler/mod.rs) against its natural-language specification.

The scheduler state is embedded shallowly, following the arena modelling
the specification itself prescribes: the task registry is an association
list keyed by TaskId; ready queues, the finished queue and the current
pointer hold TaskIds, looked up afresh through the registry. Machine
pointers are replaced by this index indirection. Every operation that can
panic in the source returns an Option, with none standing for the panic
(the kernel halts, so no post-panic state is observable). The external
collaborators switch, replace_boot_stack and the interrupt primitives are
out of scope per the specification and have no effect on scheduler state.
-/

namespace EduOS

/-- Modelled from the spec: the file consts.rs is not under src/. The
priority space is a fixed bounded range; the concrete bound used by the
reference configuration. -/
def NO_PRIORITIES : Nat := 32

/-- Modelled from the spec: the file task.rs is not under src/. The lowest
(numerically largest, serviced last) priority level, reserved for the idle
task. -/
def LOW_PRIO : Nat := NO_PRIORITIES - 1

/-- Modelled from the spec: the default priority level for ordinary tasks. -/
def NORMAL_PRIO : Nat := 24

/-- Modelled from the spec: the file task.rs is not under src/. The task
status enumeration named by the specification data model. -/
inductive TaskStatus where
  | TaskInvalid
  | TaskReady
  | TaskRunning
  | TaskBlocked
  | TaskIdle
  | TaskFinished
deriving DecidableEq, Repr

open TaskStatus

/-- Modelled from the spec: the file task.rs is not under src/. A task
control block owns its id, status, priority, an owned stack region
(represented by an abstract allocation number), the saved stack pointer of
the suspended context, and the entry function whose initial frame is
currently installed on the stack (none for the boot/idle context). Entry
functions are named by abstract numbers. -/
structure Task where
  id : Nat
  status : TaskStatus
  prio : Nat
  last_stack_pointer : Nat
  stack : Nat
  frame_entry : Option Nat
deriving DecidableEq, Repr

/-- Modelled from the spec: Task::new constructs a TCB with the given id,
status and priority, a freshly owned stack region (allocation number
supplied by the caller), a zero saved stack pointer and no installed
frame. -/
def Task.new (id : Nat) (status : TaskStatus) (prio : Nat) (stackId : Nat) : Task :=
  { id := id, status := status, prio := prio, last_stack_pointer := 0,
    stack := stackId, frame_entry := none }

/-- Modelled from the spec: create_stack_frame installs a fresh initial
execution context for the entry function on the existing stack of the
task and points the saved stack pointer into that stack (represented as
the abstract top-of-stack address stack + 1, in particular nonzero). -/
def Task.create_stack_frame (t : Task) (func : Nat) : Task :=
  { t with frame_entry := some func, last_stack_pointer := t.stack + 1 }

/-- Lookup in the task registry (BTreeMap get), first matching key. -/
def mlookup : List (Nat × Task) → Nat → Option Task
  | [], _ => none
  | (k, t) :: m, k2 => if k = k2 then some t else mlookup m k2

/-- Key membership in the task registry (BTreeMap contains_key). -/
def mcontains (m : List (Nat × Task)) (k : Nat) : Bool :=
  (mlookup m k).isSome

/-- Insertion into the task registry (BTreeMap insert): replace the entry
if the key is present, append otherwise. -/
def minsert : List (Nat × Task) → Nat → Task → List (Nat × Task)
  | [], k, v => [(k, v)]
  | (k2, v2) :: m, k, v =>
    if k2 = k then (k, v) :: m else (k2, v2) :: minsert m k v

/-- In-place mutation of the TCB registered under a key (the source
mutates through a shared pointer obtained by get_mut; with unique keys
this is the entry update). -/
def mupdate (m : List (Nat × Task)) (k : Nat) (f : Task → Task) : List (Nat × Task) :=
  m.map (fun kt => if kt.1 = k then (kt.1, f kt.2) else kt)

/-- Removal from the task registry (BTreeMap remove), first occurrence. -/
def mremove : List (Nat × Task) → Nat → List (Nat × Task)
  | [], _ => []
  | (k2, v2) :: m, k => if k2 = k then m else (k2, v2) :: mremove m k

/-- Status of the TCB registered under a key, if any. -/
def statusOf (m : List (Nat × Task)) (k : Nat) : Option TaskStatus :=
  (mlookup m k).map Task.status

/-- Push of a task id at the back of the ready queue of the given level
(the indexing of the ready-queue array in the source); none models the
out-of-bounds indexing panic. -/
def qpush : List (List Nat) → Nat → Nat → Option (List (List Nat))
  | [], _, _ => none
  | q :: qs, 0, tid => some ((q ++ [tid]) :: qs)
  | q :: qs, i + 1, tid => (qpush qs i tid).map (fun qs2 => q :: qs2)

/-- The scan loop of get_next_task over levels 0 .. bound (exclusive):
pop the front of the first non-empty ready queue. The outer none models
the out-of-bounds indexing panic, the inner none an unsuccessful scan. -/
def scanQueues : List (List Nat) → Nat → Option (Option (Nat × List (List Nat)))
  | _, 0 => some none
  | [], _ + 1 => none
  | q :: qs, b + 1 =>
    match q with
    | tid :: rest => some (some (tid, rest :: qs))
    | [] => (scanQueues qs b).map (Option.map (fun p => (p.1, [] :: p.2)))

/-- Membership of a task id in some ready queue. -/
def InQueues (qs : List (List Nat)) (x : Nat) : Prop :=
  ∃ q ∈ qs, x ∈ q

/-- The scheduler state: Scheduler plus the global TID_COUNTER, and an
allocation counter giving abstract identities to stack regions. -/
structure SchedState where
  current_tid : Nat
  idle_tid : Nat
  ready_queues : List (List Nat)
  finished_tasks : List Nat
  tasks : List (Nat × Task)
  tid_counter : Nat
  stack_counter : Nat
deriving DecidableEq, Repr

/-- Scheduler::new, together with the boot value 0 of TID_COUNTER. The
source initializes the finished queue and the registry lazily in
add_idle_task; they are represented empty here. -/
def newScheduler : SchedState :=
  { current_tid := 0, idle_tid := 0,
    ready_queues := List.replicate NO_PRIORITIES [],
    finished_tasks := [], tasks := [],
    tid_counter := 0, stack_counter := 0 }

/-- The retry loop of get_tid with explicit fuel: probe the counter value,
advance the counter, return the first value not registered. -/
def get_tid_aux (tasks : List (Nat × Task)) : Nat → Nat → Option Nat
  | _, 0 => none
  | c, fuel + 1 =>
    if mcontains tasks c then get_tid_aux tasks (c + 1) fuel else some c

/-- Scheduler::get_tid: allocate a task id not currently registered,
returning the id and the advanced counter. The fuel tasks.length + 1
always suffices (pigeonhole), so none is never actually returned. -/
def get_tid (s : SchedState) : Option (Nat × Nat) :=
  (get_tid_aux s.tasks s.tid_counter (s.tasks.length + 1)).map
    (fun id => (id, id + 1))

/-- Scheduler::add_idle_task: initialize the queues and the registry,
allocate the idle id, make it current, register the idle TCB with status
TaskIdle and the lowest priority. The call to replace_boot_stack is
external. -/
def add_idle_task (s : SchedState) : Option SchedState :=
  let s0 := { s with finished_tasks := ([] : List Nat), tasks := ([] : List (Nat × Task)) }
  match get_tid s0 with
  | none => none
  | some (tid, c2) =>
    let idle_task := Task.new tid TaskIdle LOW_PRIO s0.stack_counter
    some { s0 with idle_tid := tid, current_tid := tid, tid_counter := c2,
                   stack_counter := s0.stack_counter + 1,
                   tasks := minsert s0.tasks tid idle_task }

/-- Scheduler::spawn: reuse a TCB popped from the finished queue if one
exists (resetting status, priority and saved stack pointer and installing
a fresh frame), otherwise allocate a fresh id and TCB; in both cases the
task is appended to the ready queue of the requested priority. none
models the panics (missing registry entry for a reused id, out-of-bounds
priority index). -/
def spawn (s : SchedState) (func : Nat) (prio : Nat) : Option (Nat × SchedState) :=
  match s.finished_tasks with
  | [] =>
    match get_tid s with
    | none => none
    | some (tid, c2) =>
      let task := (Task.new tid TaskReady prio s.stack_counter).create_stack_frame func
      match qpush s.ready_queues prio tid with
      | none => none
      | some qs =>
        some (tid, { s with tid_counter := c2, stack_counter := s.stack_counter + 1,
                            ready_queues := qs,
                            tasks := minsert s.tasks tid task })
  | id :: rest =>
    match mlookup s.tasks id with
    | none => none
    | some _ =>
      match qpush s.ready_queues prio id with
      | none => none
      | some qs =>
        some (id, { s with finished_tasks := rest, ready_queues := qs,
                           tasks := mupdate s.tasks id (fun t =>
                             ({ t with status := TaskReady, prio := prio,
                                       last_stack_pointer := 0 }).create_stack_frame func) })

/-- The search bound of get_next_task: levels 0 .. prio of the current
task inclusive while it is still running, all levels otherwise. -/
def searchBound (cur : Task) : Nat :=
  if cur.status = TaskRunning then cur.prio + 1 else NO_PRIORITIES

/-- Scheduler::get_next_task: look up the current task, scan the allowed
priority levels in ascending order, pop and mark Running the first ready
task found; otherwise fall back to the idle task (via its fixed id,
without touching its status) when the current task cannot continue, or
signal no switch needed. -/
def get_next_task (s : SchedState) : Option (Option Nat × SchedState) :=
  match mlookup s.tasks s.current_tid with
  | none => none
  | some cur =>
    match scanQueues s.ready_queues (searchBound cur) with
    | none => none
    | some (some (tid, qs2)) =>
      some (some tid,
        { s with ready_queues := qs2,
                 tasks := mupdate s.tasks tid (fun t => { t with status := TaskRunning }) })
    | some none =>
      if cur.status ≠ TaskRunning then
        match mlookup s.tasks s.idle_tid with
        | none => none
        | some _ => some (some s.idle_tid, s)
      else
        some (none, s)

/-- Scheduler::schedule: pick the next task, update current_tid, and when
a switch is due inspect the outgoing task: demote a Running task to Ready
and re-enqueue it, retire a Finished task to Invalid and push its id onto
the finished queue. The final call to switch is external and does not
change scheduler state. -/
def schedule (s : SchedState) : Option SchedState :=
  let old_id := s.current_tid
  match get_next_task s with
  | none => none
  | some (res, s1) =>
    let s2 := match res with
      | some tid => { s1 with current_tid := tid }
      | none => s1
    if old_id = s2.current_tid then
      some s2
    else
      match mlookup s2.tasks old_id with
      | none => none
      | some t =>
        if t.status = TaskRunning then
          match qpush s2.ready_queues t.prio old_id with
          | none => none
          | some qs =>
            some { s2 with
                     tasks := mupdate s2.tasks old_id (fun u => { u with status := TaskReady }),
                     ready_queues := qs }
        else if t.status = TaskFinished then
          some { s2 with
                   tasks := mupdate s2.tasks old_id (fun u => { u with status := TaskInvalid }),
                   finished_tasks := s2.finished_tasks ++ [old_id] }
        else
          some s2

/-- Scheduler::cleanup_tasks: pop at most one id from the finished queue;
if it is still registered, drop its TCB (and thereby its stack) from the
registry; a missing registration is only logged. -/
def cleanup_tasks (s : SchedState) : SchedState :=
  match s.finished_tasks with
  | [] => s
  | id :: rest =>
    match mlookup s.tasks id with
    | some _ => { s with finished_tasks := rest, tasks := mremove s.tasks id }
    | none => { s with finished_tasks := rest }

/-- Scheduler::reschedule: deferred cleanup, then dispatch with
interrupts masked (the interrupt primitives are external). -/
def reschedule (s : SchedState) : Option SchedState :=
  schedule (cleanup_tasks s)

/-- Scheduler::exit: a current task whose status is TaskIdle must never
terminate (panic, modelled none); otherwise mark it Finished; an
unregistered current id is only logged; finally reschedule. -/
def exitTask (s : SchedState) : Option SchedState :=
  match mlookup s.tasks s.current_tid with
  | some t =>
    if t.status ≠ TaskIdle then
      reschedule { s with tasks := mupdate s.tasks s.current_tid
                            (fun u => { u with status := TaskFinished }) }
    else
      none
  | none => reschedule s

/-- Scheduler::block_current_task: the current task must be Running
(panic otherwise, also when unregistered); mark it Blocked and hand its
reference (its id, in the arena model) back to the caller. -/
def block_current_task (s : SchedState) : Option (Nat × SchedState) :=
  match mlookup s.tasks s.current_tid with
  | some t =>
    if t.status = TaskRunning then
      some (s.current_tid,
        { s with tasks := mupdate s.tasks s.current_tid
                   (fun u => { u with status := TaskBlocked }) })
    else
      none
  | none => none

/-- Scheduler::wakeup_task: a no-op unless the referenced TCB is exactly
Blocked; then mark it Ready and append it to the ready queue of its
priority. The handle is a task id in the arena model; a dangling handle
(id not registered) is undefined behaviour in the source and is modelled
as stuck (none). -/
def wakeup_task (s : SchedState) (tid : Nat) : Option SchedState :=
  match mlookup s.tasks tid with
  | none => none
  | some t =>
    if t.status = TaskBlocked then
      match qpush s.ready_queues t.prio tid with
      | none => none
      | some qs =>
        some { s with tasks := mupdate s.tasks tid (fun u => { u with status := TaskReady }),
                      ready_queues := qs }
    else
      some s

/-- States reachable through the public scheduler interface: the one-time
initialization followed by any sequence of successful spawn, reschedule,
exit, block_current_task and wakeup_task calls. -/
inductive Reachable : SchedState → Prop where
  | init : ∀ s, add_idle_task newScheduler = some s → Reachable s
  | spawn : ∀ s f p tid s2, Reachable s → spawn s f p = some (tid, s2) → Reachable s2
  | resched : ∀ s s2, Reachable s → reschedule s = some s2 → Reachable s2
  | exit : ∀ s s2, Reachable s → exitTask s = some s2 → Reachable s2
  | block : ∀ s tid s2, Reachable s → block_current_task s = some (tid, s2) → Reachable s2
  | wakeup : ∀ s tid s2, Reachable s → wakeup_task s tid = some s2 → Reachable s2

/-- Number of registered TCBs whose status is TaskRunning. -/
def countRunning (m : List (Nat × Task)) : Nat :=
  m.countP (fun kt => kt.2.status = TaskRunning)

/-- The scheduler state immediately after the one-time initialization:
the idle task has id 0, is current, and is the only registered TCB. -/
def initState : SchedState :=
  { current_tid := 0, idle_tid := 0,
    ready_queues := List.replicate NO_PRIORITIES [],
    finished_tasks := [],
    tasks := [(0, { id := 0, status := TaskIdle, prio := LOW_PRIO,
                    last_stack_pointer := 0, stack := 0, frame_entry := none })],
    tid_counter := 1, stack_counter := 1 }

instance (qs : List (List Nat)) (x : Nat) : Decidable (InQueues qs x) := by
  unfold InQueues
  infer_instance

/-- The dispatch algorithm as the specification states it (section 4.2):
restrict the search to priority levels 0 .. prio of the current task
inclusive while it is Running, otherwise search all levels; scan the
allowed levels in ascending numeric order and pop the front entry of the
first non-empty ready queue, marking it Running; with no candidate, fall
back to the idle task directly via its fixed id (never through a ready
queue) when the current task cannot continue, else signal that no switch
is needed. Written from the specification text, to be compared with the
source translation get_next_task. -/
def get_next_task_spec (s : SchedState) (cur : Task) : Option Nat × SchedState :=
  let bound := if cur.status = TaskStatus.TaskRunning then cur.prio + 1 else NO_PRIORITIES
  match (List.range bound).find? (fun i => !(s.ready_queues.getD i []).isEmpty) with
  | some i =>
    (some ((s.ready_queues.getD i []).headD 0),
     { s with
         ready_queues := s.ready_queues.set i (s.ready_queues.getD i []).tail,
         tasks := mupdate s.tasks ((s.ready_queues.getD i []).headD 0)
           (fun t => { t with status := TaskStatus.TaskRunning }) })
  | none =>
    if cur.status ≠ TaskStatus.TaskRunning then (some s.idle_tid, s) else (none, s)

/-- The idle TCB as registered by initialization. -/
def idleTask0 : Task :=
  { id := 0, status := TaskIdle, prio := LOW_PRIO, last_stack_pointer := 0,
    stack := 0, frame_entry := none }

/-- The TCB of the first spawned task (entry function 7, priority 24) in
the concrete trace used by the witnesses, with the given status. -/
def demoTask (st : TaskStatus) : Task :=
  { id := 1, status := st, prio := 24, last_stack_pointer := 2, stack := 1,
    frame_entry := some 7 }

/-- Trace state after init and spawn of task 1 at priority 24. -/
def trace1 : SchedState :=
  { current_tid := 0, idle_tid := 0,
    ready_queues := (List.replicate NO_PRIORITIES []).set 24 [1],
    finished_tasks := [], tasks := [(0, idleTask0), (1, demoTask TaskReady)],
    tid_counter := 2, stack_counter := 2 }

/-- Trace state after the first reschedule: task 1 is current and Running. -/
def trace2 : SchedState :=
  { trace1 with current_tid := 1,
                ready_queues := List.replicate NO_PRIORITIES [],
                tasks := [(0, idleTask0), (1, demoTask TaskRunning)] }

/-- The intermediate state get_next_task produces from trace1 (task 1
popped and marked Running, current pointer not yet moved). -/
def trace1b : SchedState := { trace2 with current_tid := 0 }

/-- Trace state after block_current_task: task 1 is current and Blocked. -/
def trace3 : SchedState :=
  { trace2 with tasks := [(0, idleTask0), (1, demoTask TaskBlocked)] }

/-- Trace state after wakeup_task on task 1: the current task is Ready
and sits in the ready queue of level 24. -/
def trace4 : SchedState :=
  { trace3 with ready_queues := (List.replicate NO_PRIORITIES []).set 24 [1],
                tasks := [(0, idleTask0), (1, demoTask TaskReady)] }

/-- Trace state after task 1 exits from trace2: the idle task is current
again, task 1 is retired to Invalid and waits in the finished queue. -/
def trace5 : SchedState :=
  { trace1b with finished_tasks := [1],
                 tasks := [(0, idleTask0), (1, demoTask TaskInvalid)] }

/-! Lemmas about the registry operations. -/

theorem mlookup_cons (k2 : Nat) (t2 : Task) (m : List (Nat × Task)) (k : Nat) :
    mlookup ((k2, t2) :: m) k = if k2 = k then some t2 else mlookup m k := rfl

theorem minsert_cons (k2 : Nat) (t2 : Task) (m : List (Nat × Task)) (k : Nat) (v : Task) :
    minsert ((k2, t2) :: m) k v =
      if k2 = k then (k, v) :: m else (k2, t2) :: minsert m k v := rfl

theorem mupdate_cons (k2 : Nat) (t2 : Task) (m : List (Nat × Task)) (k : Nat) (f : Task → Task) :
    mupdate ((k2, t2) :: m) k f =
      (if k2 = k then (k2, f t2) else (k2, t2)) :: mupdate m k f := by
  by_cases h : k2 = k <;> simp [mupdate, h]

theorem mremove_cons (k2 : Nat) (t2 : Task) (m : List (Nat × Task)) (k : Nat) :
    mremove ((k2, t2) :: m) k =
      if k2 = k then m else (k2, t2) :: mremove m k := rfl

theorem mlookup_eq_none_iff (m : List (Nat × Task)) (k : Nat) :
    mlookup m k = none ↔ k ∉ m.map Prod.fst := by
  induction m with
  | nil => simp [mlookup]
  | cons kt m ih =>
    obtain ⟨k2, t2⟩ := kt
    rw [mlookup_cons]
    by_cases h : k2 = k
    · subst h
      simp
    · simp [h, ih, Ne.symm h]

theorem mlookup_mem {m : List (Nat × Task)} {k : Nat} {t : Task}
    (h : mlookup m k = some t) : (k, t) ∈ m := by
  induction m with
  | nil => simp [mlookup] at h
  | cons kt m ih =>
    obtain ⟨k2, t2⟩ := kt
    rw [mlookup_cons] at h
    by_cases hk : k2 = k
    · rw [if_pos hk, Option.some.injEq] at h
      subst hk
      subst h
      exact List.mem_cons_self _ _
    · rw [if_neg hk] at h
      exact List.mem_cons_of_mem _ (ih h)

theorem mlookup_isSome_iff (m : List (Nat × Task)) (k : Nat) :
    (mlookup m k).isSome = true ↔ k ∈ m.map Prod.fst := by
  rcases h : mlookup m k with _ | t
  · simpa [h] using (mlookup_eq_none_iff m k).mp h
  · simp only [h, Option.isSome_some, true_iff]
    exact List.mem_map.mpr ⟨(k, t), mlookup_mem h, rfl⟩

theorem mlookup_of_mem_nodup {m : List (Nat × Task)} {k : Nat} {t : Task}
    (hnd : (m.map Prod.fst).Nodup) (h : (k, t) ∈ m) : mlookup m k = some t := by
  induction m with
  | nil => simp at h
  | cons kt m ih =>
    obtain ⟨k2, t2⟩ := kt
    simp only [List.map_cons, List.nodup_cons] at hnd
    rw [mlookup_cons]
    rcases List.mem_cons.mp h with h1 | h1
    · rw [Prod.mk.injEq] at h1
      obtain ⟨rfl, rfl⟩ := h1
      exact if_pos rfl
    · have hmem : k ∈ m.map Prod.fst := List.mem_map.mpr ⟨(k, t), h1, rfl⟩
      have hk : k2 ≠ k := fun he => hnd.1 (he.symm ▸ hmem)
      rw [if_neg hk]
      exact ih hnd.2 h1

theorem mem_eq_of_lookup_nodup {m : List (Nat × Task)} {k : Nat} {t t0 : Task}
    (hnd : (m.map Prod.fst).Nodup) (h : mlookup m k = some t)
    (h0 : (k, t0) ∈ m) : t0 = t := by
  have h2 := mlookup_of_mem_nodup hnd h0
  rw [h] at h2
  exact (Option.some.injEq .. ▸ h2).symm

theorem mlookup_minsert_self (m : List (Nat × Task)) (k : Nat) (v : Task) :
    mlookup (minsert m k v) k = some v := by
  induction m with
  | nil => simp [minsert, mlookup]
  | cons kt m ih =>
    obtain ⟨k2, t2⟩ := kt
    rw [minsert_cons]
    by_cases h : k2 = k
    · rw [if_pos h, mlookup_cons, if_pos rfl]
    · rw [if_neg h, mlookup_cons, if_neg h]
      exact ih

theorem mlookup_minsert_ne (m : List (Nat × Task)) {k k2 : Nat} (v : Task)
    (h : k2 ≠ k) : mlookup (minsert m k v) k2 = mlookup m k2 := by
  induction m with
  | nil => simp [minsert, mlookup, Ne.symm h]
  | cons kt m ih =>
    obtain ⟨k3, t3⟩ := kt
    rw [minsert_cons]
    by_cases h3 : k3 = k
    · rw [if_pos h3, mlookup_cons, if_neg (Ne.symm h), mlookup_cons, if_neg]
      rw [h3]
      exact Ne.symm h
    · rw [if_neg h3, mlookup_cons, mlookup_cons]
      by_cases h4 : k3 = k2
      · rw [if_pos h4, if_pos h4]
      · rw [if_neg h4, if_neg h4, ih]

theorem minsert_of_absent {m : List (Nat × Task)} {k : Nat} (v : Task)
    (h : k ∉ m.map Prod.fst) : minsert m k v = m ++ [(k, v)] := by
  induction m with
  | nil => simp [minsert]
  | cons kt m ih =>
    obtain ⟨k2, t2⟩ := kt
    simp only [List.map_cons, List.mem_cons, not_or] at h
    rw [minsert_cons, if_neg (Ne.symm h.1), ih h.2]
    rfl

theorem keys_minsert_present {m : List (Nat × Task)} {k : Nat} {t : Task} (v : Task)
    (h : mlookup m k = some t) :
    (minsert m k v).map Prod.fst = m.map Prod.fst := by
  induction m with
  | nil => simp [mlookup] at h
  | cons kt m ih =>
    obtain ⟨k2, t2⟩ := kt
    rw [mlookup_cons] at h
    rw [minsert_cons]
    by_cases hk : k2 = k
    · rw [if_pos hk, hk]
      rfl
    · rw [if_neg hk] at h
      rw [if_neg hk, List.map_cons, List.map_cons, ih h]

theorem nodup_keys_minsert {m : List (Nat × Task)} {k : Nat} (v : Task)
    (hnd : (m.map Prod.fst).Nodup) :
    ((minsert m k v).map Prod.fst).Nodup := by
  rcases h : mlookup m k with _ | t
  · rw [minsert_of_absent v ((mlookup_eq_none_iff m k).mp h)]
    simpa using List.Nodup.append hnd (by simp)
      (by simpa using (mlookup_eq_none_iff m k).mp h)
  · rw [keys_minsert_present v h]
    exact hnd

theorem mem_minsert {m : List (Nat × Task)} {k : Nat} {v : Task} {kt : Nat × Task} :
    kt ∈ minsert m k v → kt ∈ m ∨ kt = (k, v) := by
  induction m with
  | nil => simp [minsert]
  | cons kt2 m ih =>
    obtain ⟨k2, t2⟩ := kt2
    rw [minsert_cons]
    by_cases h : k2 = k
    · rw [if_pos h]
      intro hm
      rcases List.mem_cons.mp hm with h1 | h1
      · exact Or.inr h1
      · exact Or.inl (List.mem_cons_of_mem _ h1)
    · rw [if_neg h]
      intro hm
      rcases List.mem_cons.mp hm with h1 | h1
      · exact Or.inl (h1 ▸ List.mem_cons_self _ _)
      · rcases ih h1 with h2 | h2
        · exact Or.inl (List.mem_cons_of_mem _ h2)
        · exact Or.inr h2

theorem keys_mupdate (m : List (Nat × Task)) (k : Nat) (f : Task → Task) :
    (mupdate m k f).map Prod.fst = m.map Prod.fst := by
  induction m with
  | nil => rfl
  | cons kt m ih =>
    obtain ⟨k2, t2⟩ := kt
    rw [mupdate_cons, List.map_cons, List.map_cons, ih]
    by_cases h : k2 = k
    · rw [if_pos h]
    · rw [if_neg h]

theorem mlookup_mupdate_self (m : List (Nat × Task)) (k : Nat) (f : Task → Task) :
    mlookup (mupdate m k f) k = (mlookup m k).map f := by
  induction m with
  | nil => simp [mupdate, mlookup]
  | cons kt m ih =>
    obtain ⟨k2, t2⟩ := kt
    rw [mupdate_cons, mlookup_cons]
    by_cases h : k2 = k
    · rw [if_pos h, if_pos h, mlookup_cons, if_pos h]
      rfl
    · rw [if_neg h, if_neg h, mlookup_cons, if_neg h, ih]

theorem mlookup_mupdate_ne (m : List (Nat × Task)) {k k2 : Nat} (f : Task → Task)
    (h : k2 ≠ k) : mlookup (mupdate m k f) k2 = mlookup m k2 := by
  induction m with
  | nil => simp [mupdate, mlookup]
  | cons kt m ih =>
    obtain ⟨k3, t3⟩ := kt
    rw [mupdate_cons, mlookup_cons]
    by_cases h3 : k3 = k
    · rw [if_pos h3, mlookup_cons, if_neg (h3 ▸ Ne.symm h), if_neg (h3 ▸ Ne.symm h), ih]
    · rw [if_neg h3, mlookup_cons]
      by_cases h4 : k3 = k2
      · rw [if_pos h4, if_pos h4]
      · rw [if_neg h4, if_neg h4, ih]

theorem mem_mupdate {m : List (Nat × Task)} {k : Nat} {f : Task → Task}
    {kt : Nat × Task} (h : kt ∈ mupdate m k f) :
    ∃ kt0 ∈ m, kt = if kt0.1 = k then (kt0.1, f kt0.2) else kt0 := by
  obtain ⟨kt0, h0, h1⟩ := List.mem_map.mp h
  exact ⟨kt0, h0, h1.symm⟩

theorem statusOf_mupdate_ne (m : List (Nat × Task)) {k k2 : Nat} (f : Task → Task)
    (h : k2 ≠ k) : statusOf (mupdate m k f) k2 = statusOf m k2 := by
  simp [statusOf, mlookup_mupdate_ne m f h]

theorem mremove_sublist (m : List (Nat × Task)) (k : Nat) :
    List.Sublist (mremove m k) m := by
  induction m with
  | nil => simp [mremove]
  | cons kt m ih =>
    obtain ⟨k2, t2⟩ := kt
    rw [mremove_cons]
    by_cases h : k2 = k
    · rw [if_pos h]
      exact List.sublist_cons_self _ _
    · rw [if_neg h]
      exact List.Sublist.cons₂ _ ih

theorem nodup_keys_mremove {m : List (Nat × Task)} (k : Nat)
    (hnd : (m.map Prod.fst).Nodup) :
    ((mremove m k).map Prod.fst).Nodup :=
  ((mremove_sublist m k).map Prod.fst).nodup hnd

theorem mlookup_mremove_ne (m : List (Nat × Task)) {k k2 : Nat}
    (h : k2 ≠ k) : mlookup (mremove m k) k2 = mlookup m k2 := by
  induction m with
  | nil => simp [mremove]
  | cons kt m ih =>
    obtain ⟨k3, t3⟩ := kt
    rw [mremove_cons]
    by_cases h3 : k3 = k
    · rw [if_pos h3, mlookup_cons, if_neg (h3 ▸ Ne.symm h)]
    · rw [if_neg h3, mlookup_cons, mlookup_cons]
      by_cases h4 : k3 = k2
      · rw [if_pos h4, if_pos h4]
      · rw [if_neg h4, if_neg h4, ih]

theorem mlookup_mremove_self {m : List (Nat × Task)} {k : Nat}
    (hnd : (m.map Prod.fst).Nodup) : mlookup (mremove m k) k = none := by
  induction m with
  | nil => simp [mremove, mlookup]
  | cons kt m ih =>
    obtain ⟨k2, t2⟩ := kt
    simp only [List.map_cons, List.nodup_cons] at hnd
    rw [mremove_cons]
    by_cases h : k2 = k
    · rw [if_pos h, mlookup_eq_none_iff]
      rw [h] at hnd
      exact hnd.1
    · rw [if_neg h, mlookup_cons, if_neg h]
      exact ih hnd.2
/-! Lemmas about the ready-queue operations. -/

theorem InQueues_cons {q : List Nat} {qs : List (List Nat)} {x : Nat} :
    InQueues (q :: qs) x ↔ x ∈ q ∨ InQueues qs x := by
  constructor
  · rintro ⟨q2, hq2, hx⟩
    rcases List.mem_cons.mp hq2 with rfl | h
    · exact Or.inl hx
    · exact Or.inr ⟨q2, h, hx⟩
  · rintro (h | ⟨q2, hq2, hx⟩)
    · exact ⟨q, List.mem_cons_self _ _, h⟩
    · exact ⟨q2, List.mem_cons_of_mem _ hq2, hx⟩

theorem qpush_none_iff (qs : List (List Nat)) (i tid : Nat) :
    qpush qs i tid = none ↔ qs.length ≤ i := by
  induction qs generalizing i with
  | nil => simp [qpush]
  | cons q qs ih =>
    cases i with
    | zero => simp [qpush]
    | succ i => simpa [qpush, Option.map_eq_none'] using ih i

theorem qpush_mem {qs qs2 : List (List Nat)} {i tid : Nat}
    (h : qpush qs i tid = some qs2) (x : Nat) :
    InQueues qs2 x ↔ InQueues qs x ∨ x = tid := by
  induction qs generalizing i qs2 with
  | nil => simp [qpush] at h
  | cons q qs ih =>
    cases i with
    | zero =>
      simp only [qpush, Option.some.injEq] at h
      subst h
      simp [InQueues_cons, or_assoc]
      tauto
    | succ i =>
      simp only [qpush, Option.map_eq_some'] at h
      obtain ⟨qs3, h3, rfl⟩ := h
      simp [InQueues_cons, ih h3]
      tauto

theorem qpush_length {qs qs2 : List (List Nat)} {i tid : Nat}
    (h : qpush qs i tid = some qs2) : qs2.length = qs.length := by
  induction qs generalizing i qs2 with
  | nil => simp [qpush] at h
  | cons q qs ih =>
    cases i with
    | zero =>
      simp only [qpush, Option.some.injEq] at h
      subst h
      rfl
    | succ i =>
      simp only [qpush, Option.map_eq_some'] at h
      obtain ⟨qs3, h3, rfl⟩ := h
      simp [ih h3]

theorem scanQueues_found_mem {qs qs2 : List (List Nat)} {b tid : Nat}
    (h : scanQueues qs b = some (some (tid, qs2))) : InQueues qs tid := by
  induction qs generalizing b qs2 with
  | nil =>
    cases b <;> simp [scanQueues] at h
  | cons q qs ih =>
    cases b with
    | zero => simp [scanQueues] at h
    | succ b =>
      cases q with
      | cons y ys =>
        simp only [scanQueues, Option.some.injEq, Prod.mk.injEq] at h
        obtain ⟨rfl, -⟩ := h
        exact InQueues_cons.mpr (Or.inl (List.mem_cons_self _ _))
      | nil =>
        simp only [scanQueues] at h
        rcases hsc : scanQueues qs b with _ | o
        · rw [hsc] at h
          simp at h
        · rw [hsc] at h
          cases o with
          | none => simp at h
          | some p =>
            obtain ⟨tid2, qs3⟩ := p
            simp only [Option.map_some', Option.some.injEq, Prod.mk.injEq] at h
            obtain ⟨rfl, -⟩ := h
            exact InQueues_cons.mpr (Or.inr (ih hsc))

theorem scanQueues_found_sub {qs qs2 : List (List Nat)} {b tid : Nat}
    (h : scanQueues qs b = some (some (tid, qs2))) (x : Nat) :
    InQueues qs2 x → InQueues qs x := by
  induction qs generalizing b qs2 with
  | nil =>
    cases b <;> simp [scanQueues] at h
  | cons q qs ih =>
    cases b with
    | zero => simp [scanQueues] at h
    | succ b =>
      cases q with
      | cons y ys =>
        simp only [scanQueues, Option.some.injEq, Prod.mk.injEq] at h
        obtain ⟨rfl, rfl⟩ := h
        intro hx
        rcases InQueues_cons.mp hx with h1 | h1
        · exact InQueues_cons.mpr (Or.inl (List.mem_cons_of_mem _ h1))
        · exact InQueues_cons.mpr (Or.inr h1)
      | nil =>
        simp only [scanQueues] at h
        rcases hsc : scanQueues qs b with _ | o
        · rw [hsc] at h
          simp at h
        · rw [hsc] at h
          cases o with
          | none => simp at h
          | some p =>
            obtain ⟨tid2, qs3⟩ := p
            simp only [Option.map_some', Option.some.injEq, Prod.mk.injEq] at h
            obtain ⟨rfl, rfl⟩ := h
            intro hx
            rcases InQueues_cons.mp hx with h1 | h1
            · simp at h1
            · exact InQueues_cons.mpr (Or.inr (ih hsc h1))

/-! Lemmas about task id allocation. -/

theorem get_tid_aux_not_contains {tasks : List (Nat × Task)} {c fuel id : Nat}
    (h : get_tid_aux tasks c fuel = some id) : mcontains tasks id = false := by
  induction fuel generalizing c with
  | zero => simp [get_tid_aux] at h
  | succ fuel ih =>
    simp only [get_tid_aux] at h
    by_cases hc : mcontains tasks c = true
    · rw [if_pos hc] at h
      exact ih h
    · rw [if_neg hc] at h
      have hcid : c = id := Option.some.inj h
      subst hcid
      simpa using hc

theorem get_tid_aux_none_all {tasks : List (Nat × Task)} {c fuel : Nat}
    (h : get_tid_aux tasks c fuel = none) :
    ∀ i < fuel, mcontains tasks (c + i) = true := by
  induction fuel generalizing c with
  | zero => omega
  | succ fuel ih =>
    simp only [get_tid_aux] at h
    by_cases hc : mcontains tasks c = true
    · rw [if_pos hc] at h
      intro i hi
      cases i with
      | zero => simpa using hc
      | succ i =>
        have h2 := ih h i (by omega)
        have he : c + 1 + i = c + (i + 1) := by omega
        rwa [he] at h2
    · rw [if_neg hc] at h
      simp at h

theorem get_tid_isSome (s : SchedState) : (get_tid s).isSome = true := by
  rw [get_tid]
  rcases h : get_tid_aux s.tasks s.tid_counter (s.tasks.length + 1) with _ | id
  · exfalso
    set L := s.tasks.length with hL
    have hall := get_tid_aux_none_all h
    have hsub : (Finset.range (L + 1)).image (fun i => s.tid_counter + i) ⊆
        (s.tasks.map Prod.fst).toFinset := by
      intro x hx
      obtain ⟨i, hi, rfl⟩ := Finset.mem_image.mp hx
      have := hall i (Finset.mem_range.mp hi)
      simp only [mcontains] at this
      exact List.mem_toFinset.mpr ((mlookup_isSome_iff _ _).mp this)
    have hcard : L + 1 ≤ (s.tasks.map Prod.fst).toFinset.card := by
      have := Finset.card_le_card hsub
      rwa [Finset.card_image_of_injective _ (fun a b hab => by omega),
        Finset.card_range] at this
    have hle : (s.tasks.map Prod.fst).toFinset.card ≤ L := by
      simpa [hL] using (s.tasks.map Prod.fst).toFinset_card_le
    omega
  · simp [h]

theorem get_tid_spec {s : SchedState} {id c2 : Nat}
    (h : get_tid s = some (id, c2)) :
    mcontains s.tasks id = false ∧ c2 = id + 1 := by
  rw [get_tid] at h
  rcases h2 : get_tid_aux s.tasks s.tid_counter (s.tasks.length + 1) with _ | id2
  · simp [h2] at h
  · simp only [h2, Option.map_some', Option.some.injEq, Prod.mk.injEq] at h
    obtain ⟨rfl, rfl⟩ := h
    exact ⟨get_tid_aux_not_contains h2, rfl⟩

/-! Counting lemma for the at-most-one-running invariant. -/

theorem countP_eq_zero_of_not_mem_keys {m : List (Nat × Task)}
    {p : Nat × Task → Bool} {c : Nat}
    (hall : ∀ kt ∈ m, p kt = true → kt.1 = c) (hc : c ∉ m.map Prod.fst) :
    m.countP p = 0 := by
  induction m with
  | nil => simp
  | cons kt m ih =>
    simp only [List.map_cons, List.mem_cons, not_or] at hc
    rw [List.countP_cons]
    have h1 : p kt = false := by
      rcases h : p kt with _ | _
      · rfl
      · exact absurd (hall kt (List.mem_cons_self _ _) h)
          (fun he => hc.1 he.symm)
    simp [h1, ih (fun kt2 h2 hp => hall kt2 (List.mem_cons_of_mem _ h2) hp) hc.2]

theorem countP_le_one_of_keyed {m : List (Nat × Task)}
    {p : Nat × Task → Bool} {c : Nat}
    (hall : ∀ kt ∈ m, p kt = true → kt.1 = c)
    (hnd : (m.map Prod.fst).Nodup) : m.countP p ≤ 1 := by
  induction m with
  | nil => simp
  | cons kt m ih =>
    simp only [List.map_cons, List.nodup_cons] at hnd
    rw [List.countP_cons]
    rcases h : p kt with _ | _
    · simpa using ih (fun kt2 h2 hp => hall kt2 (List.mem_cons_of_mem _ h2) hp) hnd.2
    · have hc : kt.1 = c := hall kt (List.mem_cons_self _ _) h
      have : m.countP p = 0 := by
        refine countP_eq_zero_of_not_mem_keys
          (fun kt2 h2 hp => hall kt2 (List.mem_cons_of_mem _ h2) hp) ?_
        rw [hc] at hnd
        exact hnd.1
      simp [this]

/-! The scheduler invariant and its preservation. -/

theorem mem_mupdate_cases {m : List (Nat × Task)} {k : Nat} {f : Task → Task}
    {kt : Nat × Task} (h : kt ∈ mupdate m k f) :
    (kt ∈ m ∧ kt.1 ≠ k) ∨ ∃ t0, (k, t0) ∈ m ∧ kt = (k, f t0) := by
  obtain ⟨kt0, h0, rfl⟩ := mem_mupdate h
  obtain ⟨a, b⟩ := kt0
  by_cases he : a = k
  · subst he
    exact Or.inr ⟨b, h0, by simp⟩
  · exact Or.inl ⟨by simpa [he] using h0, by simp [he]⟩

theorem key_ne_of_status {m : List (Nat × Task)} {a b : Nat} {t u : Task}
    (ha : mlookup m a = some t) (hb : mlookup m b = some u)
    (h : t.status ≠ u.status) : a ≠ b := by
  intro he
  subst he
  rw [ha] at hb
  exact h (by rw [Option.some.inj hb])

theorem statusOf_some_iff {m : List (Nat × Task)} {k : Nat} {st : TaskStatus} :
    statusOf m k = some st ↔ ∃ t, mlookup m k = some t ∧ t.status = st := by
  simp [statusOf, Option.map_eq_some']

/-- The reachability invariant of the scheduler: registered keys are
unique, every TCB records its own key as id, only the current task can be
Running, the idle task is registered with status TaskIdle, and the idle
task never sits in a ready queue or in the finished queue. -/
structure Inv (s : SchedState) : Prop where
  nodupKeys : (s.tasks.map Prod.fst).Nodup
  idOk : ∀ kt ∈ s.tasks, kt.2.id = kt.1
  runCur : ∀ kt ∈ s.tasks, kt.2.status = TaskRunning → kt.1 = s.current_tid
  idleReg : statusOf s.tasks s.idle_tid = some TaskIdle
  idleNotQueued : ¬ InQueues s.ready_queues s.idle_tid
  idleNotFin : s.idle_tid ∉ s.finished_tasks

theorem inv_cleanup {s : SchedState} (hInv : Inv s) : Inv (cleanup_tasks s) := by
  rcases hf : s.finished_tasks with _ | ⟨id, rest⟩
  · simpa [cleanup_tasks, hf] using hInv
  · have hidle : s.idle_tid ≠ id ∧ s.idle_tid ∉ rest := by
      have h2 := hInv.idleNotFin
      rw [hf] at h2
      simpa using h2
    rcases hl : mlookup s.tasks id with _ | t
    · refine { nodupKeys := ?_, idOk := ?_, runCur := ?_, idleReg := ?_,
               idleNotQueued := ?_, idleNotFin := ?_ } <;>
        simp only [cleanup_tasks, hf, hl]
      · exact hInv.nodupKeys
      · exact hInv.idOk
      · exact hInv.runCur
      · exact hInv.idleReg
      · exact hInv.idleNotQueued
      · exact hidle.2
    · refine { nodupKeys := ?_, idOk := ?_, runCur := ?_, idleReg := ?_,
               idleNotQueued := ?_, idleNotFin := ?_ } <;>
        simp only [cleanup_tasks, hf, hl]
      · exact nodup_keys_mremove id hInv.nodupKeys
      · exact fun kt hkt => hInv.idOk kt ((mremove_sublist s.tasks id).subset hkt)
      · exact fun kt hkt => hInv.runCur kt ((mremove_sublist s.tasks id).subset hkt)
      · rw [statusOf, mlookup_mremove_ne s.tasks hidle.1]
        exact hInv.idleReg
      · exact hInv.idleNotQueued
      · exact hidle.2

theorem inv_wakeup {s s2 : SchedState} {tid : Nat} (hInv : Inv s)
    (h : wakeup_task s tid = some s2) : Inv s2 := by
  rcases hl : mlookup s.tasks tid with _ | t
  · simp [wakeup_task, hl] at h
  by_cases hb : t.status = TaskBlocked
  · rcases hq : qpush s.ready_queues t.prio tid with _ | qs
    · simp [wakeup_task, hl, hb, hq] at h
    · simp only [wakeup_task, hl, hb, hq, if_pos, Option.some.injEq] at h
      subst h
      obtain ⟨u, hu, hust⟩ := statusOf_some_iff.mp hInv.idleReg
      have hne : s.idle_tid ≠ tid :=
        key_ne_of_status hu hl (by rw [hust, hb]; simp)
      refine { nodupKeys := ?_, idOk := ?_, runCur := ?_, idleReg := ?_,
               idleNotQueued := ?_, idleNotFin := ?_ } <;> dsimp only
      · simpa [keys_mupdate] using hInv.nodupKeys
      · intro kt hkt
        rcases mem_mupdate_cases hkt with ⟨h1, -⟩ | ⟨t0, h1, rfl⟩
        · exact hInv.idOk kt h1
        · exact hInv.idOk (tid, t0) h1
      · intro kt hkt hrun
        rcases mem_mupdate_cases hkt with ⟨h1, -⟩ | ⟨t0, h1, rfl⟩
        · exact hInv.runCur kt h1 hrun
        · simp at hrun
      · simp only [statusOf]
        rw [mlookup_mupdate_ne s.tasks _ hne]
        exact hInv.idleReg
      · intro hq2
        rcases (qpush_mem hq s.idle_tid).mp hq2 with h1 | h1
        · exact hInv.idleNotQueued h1
        · exact hne h1
      · exact hInv.idleNotFin
  · have h2 : s2 = s := by
      simp [wakeup_task, hl, hb] at h
      exact h.symm
    subst h2
    exact hInv

theorem inv_block {s s2 : SchedState} {tid : Nat} (hInv : Inv s)
    (h : block_current_task s = some (tid, s2)) : Inv s2 := by
  rcases hl : mlookup s.tasks s.current_tid with _ | t
  · simp [block_current_task, hl] at h
  by_cases hb : t.status = TaskRunning
  · simp only [block_current_task, hl, hb, if_pos, Option.some.injEq,
      Prod.mk.injEq] at h
    obtain ⟨-, h⟩ := h
    subst h
    obtain ⟨u, hu, hust⟩ := statusOf_some_iff.mp hInv.idleReg
    have hne : s.idle_tid ≠ s.current_tid :=
      key_ne_of_status hu hl (by rw [hust, hb]; simp)
    refine { nodupKeys := ?_, idOk := ?_, runCur := ?_, idleReg := ?_,
             idleNotQueued := ?_, idleNotFin := ?_ } <;> dsimp only
    · simpa [keys_mupdate] using hInv.nodupKeys
    · intro kt hkt
      rcases mem_mupdate_cases hkt with ⟨h1, -⟩ | ⟨t0, h1, rfl⟩
      · exact hInv.idOk kt h1
      · exact hInv.idOk (s.current_tid, t0) h1
    · intro kt hkt hrun
      rcases mem_mupdate_cases hkt with ⟨h1, -⟩ | ⟨t0, h1, rfl⟩
      · exact hInv.runCur kt h1 hrun
      · simp at hrun
    · simp only [statusOf]
      rw [mlookup_mupdate_ne s.tasks _ hne]
      exact hInv.idleReg
    · exact hInv.idleNotQueued
    · exact hInv.idleNotFin
  · simp [block_current_task, hl, hb] at h

theorem inv_spawn {s s2 : SchedState} {f p tid : Nat} (hInv : Inv s)
    (h : spawn s f p = some (tid, s2)) : Inv s2 := by
  rcases hf : s.finished_tasks with _ | ⟨id, rest⟩
  · rcases hg : get_tid s with _ | ⟨tid0, c2⟩
    · simp [spawn, hf, hg] at h
    rcases hq : qpush s.ready_queues p tid0 with _ | qs
    · simp [spawn, hf, hg, hq] at h
    simp only [spawn, hf, hg, hq, Option.some.injEq, Prod.mk.injEq] at h
    obtain ⟨rfl, h⟩ := h
    subst h
    obtain ⟨hcont, -⟩ := get_tid_spec hg
    have htid_notin : tid0 ∉ s.tasks.map Prod.fst := fun hmem => by
      rw [mcontains, (mlookup_isSome_iff _ _).mpr hmem] at hcont
      cases hcont
    have hidle_mem : s.idle_tid ∈ s.tasks.map Prod.fst := by
      obtain ⟨u, hu, -⟩ := statusOf_some_iff.mp hInv.idleReg
      exact (mlookup_isSome_iff _ _).mp (by simp [hu])
    have hne : s.idle_tid ≠ tid0 := fun he => htid_notin (he ▸ hidle_mem)
    refine { nodupKeys := ?_, idOk := ?_, runCur := ?_, idleReg := ?_,
             idleNotQueued := ?_, idleNotFin := ?_ } <;> dsimp only
    · exact nodup_keys_minsert _ hInv.nodupKeys
    · intro kt hkt
      rcases mem_minsert hkt with h1 | rfl
      · exact hInv.idOk kt h1
      · simp [Task.new, Task.create_stack_frame]
    · intro kt hkt hrun
      rcases mem_minsert hkt with h1 | rfl
      · exact hInv.runCur kt h1 hrun
      · simp [Task.new, Task.create_stack_frame] at hrun
    · simp only [statusOf]
      rw [mlookup_minsert_ne _ _ hne]
      exact hInv.idleReg
    · intro hq2
      rcases (qpush_mem hq s.idle_tid).mp hq2 with h1 | h1
      · exact hInv.idleNotQueued h1
      · exact hne h1
    · simp
  · rcases hl : mlookup s.tasks id with _ | t0
    · simp [spawn, hf, hl] at h
    rcases hq : qpush s.ready_queues p id with _ | qs
    · simp [spawn, hf, hl, hq] at h
    simp only [spawn, hf, hl, hq, Option.some.injEq, Prod.mk.injEq] at h
    obtain ⟨rfl, h⟩ := h
    subst h
    have hfin := hInv.idleNotFin
    rw [hf] at hfin
    simp only [List.mem_cons, not_or] at hfin
    refine { nodupKeys := ?_, idOk := ?_, runCur := ?_, idleReg := ?_,
             idleNotQueued := ?_, idleNotFin := ?_ } <;> dsimp only
    · simpa [keys_mupdate] using hInv.nodupKeys
    · intro kt hkt
      rcases mem_mupdate_cases hkt with ⟨h1, -⟩ | ⟨t1, h1, rfl⟩
      · exact hInv.idOk kt h1
      · have h2 := hInv.idOk (id, t1) h1
        simpa [Task.create_stack_frame] using h2
    · intro kt hkt hrun
      rcases mem_mupdate_cases hkt with ⟨h1, -⟩ | ⟨t1, h1, rfl⟩
      · exact hInv.runCur kt h1 hrun
      · simp [Task.create_stack_frame] at hrun
    · simp only [statusOf]
      rw [mlookup_mupdate_ne _ _ hfin.1]
      exact hInv.idleReg
    · intro hq2
      rcases (qpush_mem hq s.idle_tid).mp hq2 with h1 | h1
      · exact hInv.idleNotQueued h1
      · exact hfin.1 h1
    · exact hfin.2

theorem get_next_task_eq {s : SchedState} {res : Option Nat} {s1 : SchedState}
    (h : get_next_task s = some (res, s1)) :
    ∃ cur, mlookup s.tasks s.current_tid = some cur ∧
      ((∃ tid qs2,
          scanQueues s.ready_queues (searchBound cur) = some (some (tid, qs2)) ∧
          res = some tid ∧
          s1 = { s with ready_queues := qs2,
                        tasks := mupdate s.tasks tid
                          (fun t => { t with status := TaskRunning }) }) ∨
       (scanQueues s.ready_queues (searchBound cur) = some none ∧
          cur.status ≠ TaskRunning ∧ (mlookup s.tasks s.idle_tid).isSome = true ∧
          res = some s.idle_tid ∧ s1 = s) ∨
       (scanQueues s.ready_queues (searchBound cur) = some none ∧
          cur.status = TaskRunning ∧ res = none ∧ s1 = s)) := by
  rcases hc : mlookup s.tasks s.current_tid with _ | cur
  · simp [get_next_task, hc] at h
  refine ⟨cur, rfl, ?_⟩
  rcases hsc : scanQueues s.ready_queues (searchBound cur) with _ | o
  · simp [get_next_task, hc, hsc] at h
  cases o with
  | some p =>
    obtain ⟨tid, qs2⟩ := p
    simp only [get_next_task, hc, hsc, Option.some.injEq, Prod.mk.injEq] at h
    exact Or.inl ⟨tid, qs2, rfl, h.1.symm, h.2.symm⟩
  | none =>
    by_cases hr : cur.status = TaskRunning
    · simp only [get_next_task, hc, hsc, hr] at h
      simp only [ne_eq, not_true_eq_false, if_false, Option.some.injEq,
        Prod.mk.injEq] at h
      exact Or.inr (Or.inr ⟨rfl, hr, h.1.symm, h.2.symm⟩)
    · rcases hi : mlookup s.tasks s.idle_tid with _ | u
      · simp [get_next_task, hc, hsc, hr, hi] at h
      · simp only [get_next_task, hc, hsc, hi] at h
        rw [if_pos hr] at h
        simp only [Option.some.injEq, Prod.mk.injEq] at h
        exact Or.inr (Or.inl ⟨rfl, hr, by simp [hi], h.1.symm, h.2.symm⟩)

theorem inv_schedule {s s2 : SchedState} (hInv : Inv s) (h : schedule s = some s2) :
    Inv s2 := by
  rcases hg : get_next_task s with _ | p
  · simp [schedule, hg] at h
  obtain ⟨res, s1⟩ := p
  obtain ⟨cur, hcur, hcases⟩ := get_next_task_eq hg
  obtain ⟨u, hu, hust⟩ := statusOf_some_iff.mp hInv.idleReg
  rcases hcases with ⟨tid, qs2, hsc, rfl, rfl⟩ | ⟨hsc, hnr, hi, rfl, rfl⟩ |
    ⟨hsc, hr, rfl, rfl⟩
  · have htid_q : InQueues s.ready_queues tid := scanQueues_found_mem hsc
    have hidle_ne_tid : s.idle_tid ≠ tid :=
      fun he => hInv.idleNotQueued (he ▸ htid_q)
    have hnq2 : ¬ InQueues qs2 s.idle_tid :=
      fun h2 => hInv.idleNotQueued (scanQueues_found_sub hsc _ h2)
    simp only [schedule, hg] at h
    by_cases hct : s.current_tid = tid
    · rw [if_pos hct] at h
      obtain rfl := Option.some.inj h
      refine { nodupKeys := ?_, idOk := ?_, runCur := ?_, idleReg := ?_,
               idleNotQueued := ?_, idleNotFin := ?_ } <;> dsimp only
      · simpa [keys_mupdate] using hInv.nodupKeys
      · intro kt hkt
        rcases mem_mupdate_cases hkt with ⟨h1, -⟩ | ⟨t0, h1, rfl⟩
        · exact hInv.idOk kt h1
        · simpa using hInv.idOk (tid, t0) h1
      · intro kt hkt hrun
        rcases mem_mupdate_cases hkt with ⟨h1, -⟩ | ⟨t0, h1, rfl⟩
        · exact hct ▸ hInv.runCur kt h1 hrun
        · simp
      · simp only [statusOf]
        rw [mlookup_mupdate_ne _ _ hidle_ne_tid]
        exact hInv.idleReg
      · exact hnq2
      · exact hInv.idleNotFin
    · rw [if_neg hct] at h
      have hlo : mlookup (mupdate s.tasks tid
          (fun t => { t with status := TaskRunning })) s.current_tid = some cur := by
        rw [mlookup_mupdate_ne _ _ hct]
        exact hcur
      simp only [hlo] at h
      by_cases hrn : cur.status = TaskRunning
      · rw [if_pos hrn] at h
        rcases hq : qpush qs2 cur.prio s.current_tid with _ | qs3
        · rw [hq] at h
          simp at h
        · simp only [hq] at h
          obtain rfl := Option.some.inj h
          have hio : s.idle_tid ≠ s.current_tid :=
            key_ne_of_status hu hcur (by rw [hust, hrn]; simp)
          refine { nodupKeys := ?_, idOk := ?_, runCur := ?_, idleReg := ?_,
                   idleNotQueued := ?_, idleNotFin := ?_ } <;> dsimp only
          · simpa [keys_mupdate] using hInv.nodupKeys
          · intro kt hkt
            rcases mem_mupdate_cases hkt with ⟨h1, -⟩ | ⟨t0, h1, rfl⟩
            · rcases mem_mupdate_cases h1 with ⟨h2, -⟩ | ⟨t1, h2, rfl⟩
              · exact hInv.idOk kt h2
              · simpa using hInv.idOk (tid, t1) h2
            · rcases mem_mupdate_cases h1 with ⟨h2, -⟩ | ⟨t1, h2, heq⟩
              · simpa using hInv.idOk (s.current_tid, t0) h2
              · rw [Prod.mk.injEq] at heq
                exact absurd heq.1 hct
          · intro kt hkt hrun
            rcases mem_mupdate_cases hkt with ⟨h1, hneo⟩ | ⟨t0, h1, rfl⟩
            · rcases mem_mupdate_cases h1 with ⟨h2, -⟩ | ⟨t1, h2, rfl⟩
              · exact absurd (hInv.runCur kt h2 hrun) hneo
              · simp
            · simp at hrun
          · simp only [statusOf]
            rw [mlookup_mupdate_ne _ _ hio, mlookup_mupdate_ne _ _ hidle_ne_tid]
            exact hInv.idleReg
          · intro h2
            rcases (qpush_mem hq _).mp h2 with h3 | h3
            · exact hnq2 h3
            · exact hio h3
          · exact hInv.idleNotFin
      · rw [if_neg hrn] at h
        by_cases hfn : cur.status = TaskFinished
        · rw [if_pos hfn] at h
          obtain rfl := Option.some.inj h
          have hio2 : s.idle_tid ≠ s.current_tid :=
            key_ne_of_status hu hcur (by rw [hust, hfn]; simp)
          refine { nodupKeys := ?_, idOk := ?_, runCur := ?_, idleReg := ?_,
                   idleNotQueued := ?_, idleNotFin := ?_ } <;> dsimp only
          · simpa [keys_mupdate] using hInv.nodupKeys
          · intro kt hkt
            rcases mem_mupdate_cases hkt with ⟨h1, -⟩ | ⟨t0, h1, rfl⟩
            · rcases mem_mupdate_cases h1 with ⟨h2, -⟩ | ⟨t1, h2, rfl⟩
              · exact hInv.idOk kt h2
              · simpa using hInv.idOk (tid, t1) h2
            · rcases mem_mupdate_cases h1 with ⟨h2, -⟩ | ⟨t1, h2, heq⟩
              · simpa using hInv.idOk (s.current_tid, t0) h2
              · rw [Prod.mk.injEq] at heq
                exact absurd heq.1 hct
          · intro kt hkt hrun
            rcases mem_mupdate_cases hkt with ⟨h1, hneo⟩ | ⟨t0, h1, rfl⟩
            · rcases mem_mupdate_cases h1 with ⟨h2, -⟩ | ⟨t1, h2, rfl⟩
              · exact absurd (hInv.runCur kt h2 hrun) hneo
              · simp
            · simp at hrun
          · simp only [statusOf]
            rw [mlookup_mupdate_ne _ _ hio2, mlookup_mupdate_ne _ _ hidle_ne_tid]
            exact hInv.idleReg
          · exact hnq2
          · simp only [List.mem_append, List.mem_singleton, not_or]
            exact ⟨hInv.idleNotFin, hio2⟩
        · rw [if_neg hfn] at h
          obtain rfl := Option.some.inj h
          refine { nodupKeys := ?_, idOk := ?_, runCur := ?_, idleReg := ?_,
                   idleNotQueued := ?_, idleNotFin := ?_ } <;> dsimp only
          · simpa [keys_mupdate] using hInv.nodupKeys
          · intro kt hkt
            rcases mem_mupdate_cases hkt with ⟨h1, -⟩ | ⟨t0, h1, rfl⟩
            · exact hInv.idOk kt h1
            · simpa using hInv.idOk (tid, t0) h1
          · intro kt hkt hrun
            rcases mem_mupdate_cases hkt with ⟨h1, hnet⟩ | ⟨t0, h1, rfl⟩
            · have hko := hInv.runCur kt h1 hrun
              obtain ⟨a, b⟩ := kt
              dsimp only at hko hrun
              subst hko
              have hbc := mem_eq_of_lookup_nodup hInv.nodupKeys hcur h1
              rw [hbc] at hrun
              exact absurd hrun hrn
            · simp
          · simp only [statusOf]
            rw [mlookup_mupdate_ne _ _ hidle_ne_tid]
            exact hInv.idleReg
          · exact hnq2
          · exact hInv.idleNotFin
  · simp only [schedule, hg] at h
    by_cases hci : s1.current_tid = s1.idle_tid
    · rw [if_pos hci] at h
      obtain rfl := Option.some.inj h
      refine { nodupKeys := ?_, idOk := ?_, runCur := ?_, idleReg := ?_,
               idleNotQueued := ?_, idleNotFin := ?_ } <;> dsimp only
      · exact hInv.nodupKeys
      · exact hInv.idOk
      · intro kt hkt hrun
        rw [← hci]
        exact hInv.runCur kt hkt hrun
      · exact hInv.idleReg
      · exact hInv.idleNotQueued
      · exact hInv.idleNotFin
    · rw [if_neg hci] at h
      simp only [hcur] at h
      rw [if_neg hnr] at h
      by_cases hfn : cur.status = TaskFinished
      · rw [if_pos hfn] at h
        obtain rfl := Option.some.inj h
        have hio2 : s1.idle_tid ≠ s1.current_tid :=
          key_ne_of_status hu hcur (by rw [hust, hfn]; simp)
        refine { nodupKeys := ?_, idOk := ?_, runCur := ?_, idleReg := ?_,
                 idleNotQueued := ?_, idleNotFin := ?_ } <;> dsimp only
        · simpa [keys_mupdate] using hInv.nodupKeys
        · intro kt hkt
          rcases mem_mupdate_cases hkt with ⟨h1, -⟩ | ⟨t0, h1, rfl⟩
          · exact hInv.idOk kt h1
          · simpa using hInv.idOk (s1.current_tid, t0) h1
        · intro kt hkt hrun
          rcases mem_mupdate_cases hkt with ⟨h1, hne⟩ | ⟨t0, h1, rfl⟩
          · exact absurd (hInv.runCur kt h1 hrun) hne
          · simp at hrun
        · simp only [statusOf]
          rw [mlookup_mupdate_ne _ _ hio2]
          exact hInv.idleReg
        · exact hInv.idleNotQueued
        · simp only [List.mem_append, List.mem_singleton, not_or]
          exact ⟨hInv.idleNotFin, hio2⟩
      · rw [if_neg hfn] at h
        obtain rfl := Option.some.inj h
        refine { nodupKeys := ?_, idOk := ?_, runCur := ?_, idleReg := ?_,
                 idleNotQueued := ?_, idleNotFin := ?_ } <;> dsimp only
        · exact hInv.nodupKeys
        · exact hInv.idOk
        · intro kt hkt hrun
          have hko := hInv.runCur kt hkt hrun
          obtain ⟨a, b⟩ := kt
          dsimp only at hko hrun
          subst hko
          have hbc := mem_eq_of_lookup_nodup hInv.nodupKeys hcur hkt
          rw [hbc] at hrun
          exact absurd hrun hnr
        · exact hInv.idleReg
        · exact hInv.idleNotQueued
        · exact hInv.idleNotFin
  · simp only [schedule, hg] at h
    simp only [if_true] at h
    obtain rfl := Option.some.inj h
    exact hInv

theorem inv_reschedule {s s2 : SchedState} (hInv : Inv s)
    (h : reschedule s = some s2) : Inv s2 :=
  inv_schedule (inv_cleanup hInv) h

theorem inv_exit {s s2 : SchedState} (hInv : Inv s)
    (h : exitTask s = some s2) : Inv s2 := by
  rcases hl : mlookup s.tasks s.current_tid with _ | t
  · rw [exitTask, hl] at h
    exact inv_reschedule hInv h
  · by_cases hid : t.status = TaskIdle
    · simp [exitTask, hl, hid] at h
    · simp only [exitTask, hl, ne_eq, hid, not_false_eq_true, if_true] at h
      obtain ⟨v, hv, hvst⟩ := statusOf_some_iff.mp hInv.idleReg
      have hne : s.idle_tid ≠ s.current_tid :=
        key_ne_of_status hv hl (by rw [hvst]; exact fun he => hid he.symm)
      refine inv_reschedule ?_ h
      refine { nodupKeys := ?_, idOk := ?_, runCur := ?_, idleReg := ?_,
               idleNotQueued := ?_, idleNotFin := ?_ } <;> dsimp only
      · simpa [keys_mupdate] using hInv.nodupKeys
      · intro kt hkt
        rcases mem_mupdate_cases hkt with ⟨h1, -⟩ | ⟨t0, h1, rfl⟩
        · exact hInv.idOk kt h1
        · simpa using hInv.idOk (s.current_tid, t0) h1
      · intro kt hkt hrun
        rcases mem_mupdate_cases hkt with ⟨h1, -⟩ | ⟨t0, h1, rfl⟩
        · exact hInv.runCur kt h1 hrun
        · simp at hrun
      · simp only [statusOf]
        rw [mlookup_mupdate_ne _ _ hne]
        exact hInv.idleReg
      · exact hInv.idleNotQueued
      · exact hInv.idleNotFin

theorem inv_init {s : SchedState} (h : add_idle_task newScheduler = some s) :
    Inv s := by
  have h3 : add_idle_task newScheduler = some initState := by decide
  rw [h3] at h
  obtain rfl := Option.some.inj h
  refine { nodupKeys := ?_, idOk := ?_, runCur := ?_, idleReg := ?_,
           idleNotQueued := ?_, idleNotFin := ?_ } <;> decide

theorem inv_reachable {s : SchedState} (h : Reachable s) : Inv s := by
  induction h with
  | init s hs => exact inv_init hs
  | spawn s f p tid s2 hr hop ih => exact inv_spawn ih hop
  | resched s s2 hr hop ih => exact inv_reschedule ih hop
  | exit s s2 hr hop ih => exact inv_exit ih hop
  | block s tid s2 hr hop ih => exact inv_block ih hop
  | wakeup s tid s2 hr hop ih => exact inv_wakeup ih hop


/-! Correspondence of the scan loop with the specification description:
the first non-empty allowed level, located by an ascending search. -/

theorem find?_shift (r : List Nat) (p : Nat → Bool) :
    (r.map Nat.succ).find? p = (r.find? (fun n => p (n + 1))).map Nat.succ := by
  induction r with
  | nil => simp
  | cons a r ih =>
    rw [List.map_cons, List.find?_cons, List.find?_cons]
    cases h : p (a + 1) with
    | true => simp [Nat.succ_eq_add_one, h]
    | false => simp [Nat.succ_eq_add_one, h, ih]

theorem scanQueues_spec (qs : List (List Nat)) (b : Nat) (hb : b ≤ qs.length) :
    scanQueues qs b = some (
      match (List.range b).find? (fun i => !(qs.getD i []).isEmpty) with
      | some i => some ((qs.getD i []).headD 0, qs.set i (qs.getD i []).tail)
      | none => none) := by
  induction qs generalizing b with
  | nil =>
    have hb0 : b = 0 := Nat.le_zero.mp (by simpa using hb)
    subst hb0
    simp [scanQueues]
  | cons q qs ih =>
    cases b with
    | zero => simp [scanQueues]
    | succ b =>
      have hb2 : b ≤ qs.length := by simpa using hb
      cases q with
      | cons y ys =>
        rw [List.range_succ_eq_map, List.find?_cons]
        simp [scanQueues]
      | nil =>
        have hF2 : (List.range (b + 1)).find?
              (fun i => !((([] : List Nat) :: qs).getD i []).isEmpty)
            = ((List.range b).find? (fun i => !(qs.getD i []).isEmpty)).map
                Nat.succ := by
          rw [List.range_succ_eq_map, List.find?_cons]
          simp only [List.getD_cons_zero, List.isEmpty_nil, Bool.not_true]
          rw [find?_shift]
          have h2 : (fun n => !((([] : List Nat) :: qs).getD (n + 1) []).isEmpty)
              = (fun i => !(qs.getD i []).isEmpty) := by
            funext n
            simp
          rw [h2]
        rw [show scanQueues ([] :: qs) (b + 1)
            = (scanQueues qs b).map (Option.map (fun p => (p.1, [] :: p.2)))
          from rfl]
        rw [ih b hb2, hF2]
        cases hf : (List.range b).find? (fun i => !(qs.getD i []).isEmpty) with
        | none => simp
        | some i => simp

/-- C2: get_next_task implements the dispatch algorithm stated by the
specification: with the current task Running only levels 0 .. its prio
inclusive are searched, otherwise all levels; levels are scanned in
ascending order and the first non-empty queue has its front popped,
marked Running and returned; with no candidate the idle task is returned
directly via its fixed id when the current task is not Running, and
otherwise none signals that the current task continues. -/
theorem C2_dispatch (s : SchedState) (cur : Task)
    (hc : mlookup s.tasks s.current_tid = some cur)
    (hlen : s.ready_queues.length = NO_PRIORITIES)
    (hprio : cur.status = TaskRunning → cur.prio < NO_PRIORITIES)
    (hidle : (mlookup s.tasks s.idle_tid).isSome = true) :
    get_next_task s = some (get_next_task_spec s cur) := by
  have hb : searchBound cur ≤ s.ready_queues.length := by
    rw [hlen, searchBound]
    by_cases hr : cur.status = TaskRunning
    · rw [if_pos hr]
      exact hprio hr
    · rw [if_neg hr]
  have hscan := scanQueues_spec s.ready_queues (searchBound cur) hb
  have hbd : (if cur.status = TaskRunning then cur.prio + 1 else NO_PRIORITIES)
      = searchBound cur := rfl
  cases hf : (List.range (searchBound cur)).find?
      (fun i => !(s.ready_queues.getD i []).isEmpty) with
  | some i =>
    rw [hf] at hscan
    simp only [get_next_task, hc, hscan]
    simp only [get_next_task_spec, hbd, hf]
  | none =>
    rw [hf] at hscan
    by_cases hr : cur.status = TaskRunning
    · have hsb : searchBound cur = cur.prio + 1 := by rw [searchBound, if_pos hr]
      rw [hsb] at hf
      simp only [get_next_task, hc, hscan, get_next_task_spec, hr, hf, ne_eq,
        eq_self_iff_true, not_true_eq_false, if_false, if_true]
    · have hsb : searchBound cur = NO_PRIORITIES := by rw [searchBound, if_neg hr]
      rw [hsb] at hf
      rcases ho : mlookup s.tasks s.idle_tid with _ | u
      · rw [ho] at hidle
        cases hidle
      · simp only [get_next_task, hc, hscan, ho, get_next_task_spec, hf, ne_eq,
          hr, not_false_eq_true, if_true, if_false]


/-! Concrete reachable trace used by witnesses and the counterexample:
init, spawn task 1 at priority 24, reschedule to it, block it, wake it. -/

theorem reachable_init : Reachable initState :=
  Reachable.init initState (by decide)

theorem reachable_trace1 : Reachable trace1 :=
  Reachable.spawn initState 7 24 1 trace1 reachable_init (by decide)

theorem reachable_trace2 : Reachable trace2 :=
  Reachable.resched trace1 trace2 reachable_trace1 (by decide)

theorem reachable_trace3 : Reachable trace3 :=
  Reachable.block trace2 1 trace3 reachable_trace2 (by decide)

theorem reachable_trace4 : Reachable trace4 :=
  Reachable.wakeup trace3 1 trace4 reachable_trace3 (by decide)

theorem reachable_trace5 : Reachable trace5 :=
  Reachable.exit trace2 trace5 reachable_trace2 (by decide)

/-- Keys of the task registry are never removed by schedule: no TCB is
freed during the context-transfer bookkeeping. -/
theorem schedule_keys {s s2 : SchedState} (h : schedule s = some s2) :
    s2.tasks.map Prod.fst = s.tasks.map Prod.fst := by
  rcases hg : get_next_task s with _ | p
  · simp [schedule, hg] at h
  obtain ⟨res, s1⟩ := p
  obtain ⟨cur, hcur, hcases⟩ := get_next_task_eq hg
  rcases hcases with ⟨tid, qs2, hsc, rfl, rfl⟩ | ⟨hsc, hnr, hi, rfl, rfl⟩ |
    ⟨hsc, hr, rfl, rfl⟩
  · simp only [schedule, hg] at h
    by_cases hct : s.current_tid = tid
    · rw [if_pos hct] at h
      obtain rfl := Option.some.inj h
      simp [keys_mupdate]
    · rw [if_neg hct] at h
      have hlo : mlookup (mupdate s.tasks tid
          (fun t => { t with status := TaskRunning })) s.current_tid = some cur := by
        rw [mlookup_mupdate_ne _ _ hct]
        exact hcur
      simp only [hlo] at h
      by_cases hrn : cur.status = TaskRunning
      · rw [if_pos hrn] at h
        rcases hq : qpush qs2 cur.prio s.current_tid with _ | qs3
        · rw [hq] at h
          simp at h
        · simp only [hq] at h
          obtain rfl := Option.some.inj h
          simp [keys_mupdate]
      · rw [if_neg hrn] at h
        by_cases hfn : cur.status = TaskFinished
        · rw [if_pos hfn] at h
          obtain rfl := Option.some.inj h
          simp [keys_mupdate]
        · rw [if_neg hfn] at h
          obtain rfl := Option.some.inj h
          simp [keys_mupdate]
  · simp only [schedule, hg] at h
    by_cases hci : s1.current_tid = s1.idle_tid
    · rw [if_pos hci] at h
      obtain rfl := Option.some.inj h
      rfl
    · rw [if_neg hci] at h
      simp only [hcur] at h
      rw [if_neg hnr] at h
      by_cases hfn : cur.status = TaskFinished
      · rw [if_pos hfn] at h
        obtain rfl := Option.some.inj h
        simp [keys_mupdate]
      · rw [if_neg hfn] at h
        obtain rfl := Option.some.inj h
        rfl
  · simp only [schedule, hg] at h
    simp only [if_true] at h
    obtain rfl := Option.some.inj h
    rfl

/-- C1: after scheduler initialization, at every observable point between
public operations at most one registered TCB has status TaskRunning, and
any Running TCB is the current task (the popped task is marked Running
only in a context where the outgoing Running task is demoted before the
operation completes). -/
theorem C1_at_most_one_running (s : SchedState) (h : Reachable s) :
    countRunning s.tasks ≤ 1 ∧
    ∀ kt ∈ s.tasks, kt.2.status = TaskRunning → kt.1 = s.current_tid := by
  have hInv := inv_reachable h
  refine ⟨?_, hInv.runCur⟩
  simp only [countRunning]
  exact @countP_le_one_of_keyed s.tasks _ s.current_tid
    (fun kt hkt hp => hInv.runCur kt hkt (by simpa using hp)) hInv.nodupKeys

theorem C1_witness :
    countRunning trace2.tasks ≤ 1 ∧
    ∀ kt ∈ trace2.tasks, kt.2.status = TaskRunning → kt.1 = trace2.current_tid :=
  C1_at_most_one_running trace2 reachable_trace2

theorem C2_witness :
    get_next_task trace2 = some (get_next_task_spec trace2 (demoTask TaskRunning)) :=
  C2_dispatch trace2 (demoTask TaskRunning) (by decide) (by decide)
    (fun _ => by decide) (by decide)

/-- C3 counterexample: on the reachable state trace4 (current task 1 is
Ready and sits in a ready queue after block and wakeup), schedule selects
task 1 itself as the incoming task, yet the state changes: task 1 is
popped from the queue and marked Running. So the claim that schedule
changes nothing when the selected task equals the current one is false as
stated. -/
theorem C3_counterexample :
    Reachable trace4 ∧ trace4.current_tid = 1 ∧
    get_next_task trace4 = some (some 1, trace2) ∧
    schedule trace4 = some trace2 ∧ trace2 ≠ trace4 :=
  ⟨reachable_trace4, by decide, by decide, by decide, by decide⟩

/-- C3 (amended): when schedule selects an incoming task different from
the outgoing one, the outgoing status is inspected and handled exactly
as: Running is demoted to Ready and re-enqueued at the tail of its
priority queue; Finished is set to Invalid and its id pushed onto the
finished queue; any other status is left untouched. No registry entry is
removed during schedule, so no TCB or stack is freed by it. When the
selected task equals the current one, schedule makes no changes beyond
those already performed by get_next_task. -/
theorem C3_schedule_outgoing (s : SchedState) (res : Option Nat) (s1 : SchedState)
    (hg : get_next_task s = some (res, s1)) :
    (res = none → schedule s = some s1) ∧
    (∀ tid, res = some tid → s.current_tid = tid →
      schedule s = some { s1 with current_tid := tid }) ∧
    (∀ tid, res = some tid → s.current_tid ≠ tid →
      ∀ t, mlookup s1.tasks s.current_tid = some t →
        (t.status = TaskRunning →
          schedule s = (qpush s1.ready_queues t.prio s.current_tid).map
            (fun qs =>
              { s1 with
                  current_tid := tid, ready_queues := qs,
                  tasks := mupdate s1.tasks s.current_tid
                    (fun u => { u with status := TaskReady }) })) ∧
        (t.status = TaskFinished →
          schedule s = some
            { s1 with
                current_tid := tid,
                finished_tasks := s1.finished_tasks ++ [s.current_tid],
                tasks := mupdate s1.tasks s.current_tid
                  (fun u => { u with status := TaskInvalid }) }) ∧
        (t.status ≠ TaskRunning → t.status ≠ TaskFinished →
          schedule s = some { s1 with current_tid := tid })) ∧
    (∀ s2, schedule s = some s2 →
      s2.tasks.map Prod.fst = s.tasks.map Prod.fst) := by
  refine ⟨?_, ?_, ?_, fun s2 h2 => schedule_keys h2⟩
  · rintro rfl
    have hs1 : s1 = s := by
      obtain ⟨cur, hcur, hcases⟩ := get_next_task_eq hg
      rcases hcases with ⟨tid, qs2, -, heq, -⟩ | ⟨-, -, -, heq, hs⟩ | ⟨-, -, -, hs⟩
      · cases heq
      · exact hs
      · exact hs
    subst hs1
    simp [schedule, hg]
  · rintro tid rfl hceq
    simp only [schedule, hg]
    rw [if_pos hceq]
  · rintro tid rfl hne t hl
    simp only [schedule, hg]
    rw [if_neg hne]
    simp only [hl]
    refine ⟨?_, ?_, ?_⟩
    · intro hrun
      rw [if_pos hrun]
      rcases hq : qpush s1.ready_queues t.prio s.current_tid with _ | qs
      · simp [hq]
      · simp [hq]
    · intro hfin
      have hnr : ¬ t.status = TaskRunning := by
        rw [hfin]
        simp
      rw [if_neg hnr, if_pos hfin]
    · intro hnr hnf
      rw [if_neg hnr, if_neg hnf]

theorem C3_witness : schedule trace1 = some { trace1b with current_tid := 1 } := by
  have h := C3_schedule_outgoing trace1 (some 1) trace1b (by decide)
  exact (h.2.2.1 1 rfl (by decide) idleTask0 (by decide)).2.2 (by decide) (by decide)

/-- C4: a spawn that finds the finished queue non-empty pops its front id
and reuses that still-registered TCB: the status is reset to TaskReady,
the priority overwritten with the requested one, the stale saved stack
pointer discarded, a fresh initial frame for the new entry function
installed on the existing stack, the TCB appended to the ready queue of
the new priority; the returned id equals the popped id, no fresh id is
allocated, and the registry keys are unchanged. -/
theorem C4_spawn_reuse (s : SchedState) (f p id : Nat) (rest : List Nat) (t : Task)
    (qs : List (List Nat))
    (hf : s.finished_tasks = id :: rest)
    (hl : mlookup s.tasks id = some t)
    (hq : qpush s.ready_queues p id = some qs) :
    ∃ s2, spawn s f p = some (id, s2) ∧
      s2.finished_tasks = rest ∧
      s2.ready_queues = qs ∧
      s2.tid_counter = s.tid_counter ∧
      s2.tasks.map Prod.fst = s.tasks.map Prod.fst ∧
      mlookup s2.tasks id = some
        { id := t.id, status := TaskReady, prio := p,
          last_stack_pointer := t.stack + 1, stack := t.stack,
          frame_entry := some f } := by
  have hs : spawn s f p = some (id,
      { s with
          finished_tasks := rest,
          ready_queues := qs,
          tasks := mupdate s.tasks id (fun u =>
            ({ u with status := TaskReady, prio := p,
                      last_stack_pointer := 0 }).create_stack_frame f) }) := by
    simp only [spawn, hf, hl, hq]
  refine ⟨_, hs, rfl, rfl, rfl, by simp [keys_mupdate], ?_⟩
  dsimp only
  rw [mlookup_mupdate_self, hl]
  simp [Task.create_stack_frame]

theorem C4_witness :
    ∃ s2, spawn trace5 9 5 = some (1, s2) ∧
      s2.finished_tasks = [] ∧
      s2.ready_queues = (List.replicate NO_PRIORITIES []).set 5 [1] ∧
      s2.tid_counter = trace5.tid_counter ∧
      s2.tasks.map Prod.fst = trace5.tasks.map Prod.fst ∧
      mlookup s2.tasks 1 = some
        { id := 1, status := TaskReady, prio := 5,
          last_stack_pointer := 2, stack := 1, frame_entry := some 9 } :=
  C4_spawn_reuse trace5 9 5 1 [] (demoTask TaskInvalid)
    ((List.replicate NO_PRIORITIES []).set 5 [1]) (by decide) (by decide) (by decide)

/-- C5: with the requested priority inside the documented range the
spawn succeeds and its ready-queue indexing is in bounds; spawn performs
no validation of the priority before indexing, so for a priority at or
beyond the bound the unchecked indexing panics (modelled none). -/
theorem C5_spawn_priority (s : SchedState) (f p : Nat)
    (hlen : s.ready_queues.length = NO_PRIORITIES)
    (hreg : ∀ id rest, s.finished_tasks = id :: rest →
      (mlookup s.tasks id).isSome = true) :
    (p < NO_PRIORITIES → (spawn s f p).isSome = true) ∧
    (NO_PRIORITIES ≤ p → spawn s f p = none) := by
  constructor
  · intro hp
    rcases hf : s.finished_tasks with _ | ⟨id, rest⟩
    · rcases hg : get_tid s with _ | ⟨tid0, c2⟩
      · have h2 := get_tid_isSome s
        rw [hg] at h2
        cases h2
      · rcases hq : qpush s.ready_queues p tid0 with _ | qs
        · rw [qpush_none_iff, hlen] at hq
          omega
        · simp only [spawn, hf, hg, hq]
          rfl
    · have h2 := hreg id rest hf
      rcases hl : mlookup s.tasks id with _ | t
      · rw [hl] at h2
        cases h2
      · rcases hq : qpush s.ready_queues p id with _ | qs
        · rw [qpush_none_iff, hlen] at hq
          omega
        · simp only [spawn, hf, hl, hq]
          rfl
  · intro hp
    have hqn : ∀ x, qpush s.ready_queues p x = none := fun x =>
      (qpush_none_iff _ _ _).mpr (by rw [hlen]; omega)
    rcases hf : s.finished_tasks with _ | ⟨id, rest⟩
    · rcases hg : get_tid s with _ | ⟨tid0, c2⟩
      · simp [spawn, hf, hg]
      · simp [spawn, hf, hg, hqn tid0]
    · rcases hl : mlookup s.tasks id with _ | t
      · simp [spawn, hf, hl]
      · simp [spawn, hf, hl, hqn id]

theorem C5_witness :
    (spawn initState 7 24).isSome = true ∧
    spawn initState 7 40 = none := by
  have h1 := C5_spawn_priority initState 7 24 (by decide)
    (by intro id rest h2; simp [initState] at h2)
  have h2 := C5_spawn_priority initState 7 40 (by decide)
    (by intro id rest h3; simp [initState] at h3)
  exact ⟨h1.1 (by decide), h2.2 (by decide)⟩

/-- C6: the id allocator always succeeds, returning an id that is not a
key of the registry at the moment of allocation together with the
advanced counter, and on every reachable state the ids of the registered
TCBs are pairwise distinct. -/
theorem C6_tid_unique :
    (∀ s : SchedState, ∃ id c2, get_tid s = some (id, c2) ∧
      mcontains s.tasks id = false ∧ c2 = id + 1) ∧
    (∀ s : SchedState, Reachable s →
      (s.tasks.map (fun kt => kt.2.id)).Nodup) := by
  constructor
  · intro s
    rcases hg : get_tid s with _ | ⟨id, c2⟩
    · have h2 := get_tid_isSome s
      rw [hg] at h2
      cases h2
    · obtain ⟨h3, h4⟩ := get_tid_spec hg
      exact ⟨id, c2, rfl, h3, h4⟩
  · intro s h
    have hInv := inv_reachable h
    have he : s.tasks.map (fun kt => kt.2.id) = s.tasks.map Prod.fst :=
      List.map_congr_left (fun kt hkt => hInv.idOk kt hkt)
    rw [he]
    exact hInv.nodupKeys

theorem C6_witness :
    (∃ id c2, get_tid trace2 = some (id, c2) ∧
      mcontains trace2.tasks id = false ∧ c2 = id + 1) ∧
    (trace2.tasks.map (fun kt => kt.2.id)).Nodup :=
  ⟨C6_tid_unique.1 trace2, C6_tid_unique.2 trace2 reachable_trace2⟩

/-- C7: exit is fatal when the current task has status TaskIdle; in every
other case it sets the current task to TaskFinished and invokes
reschedule; consequently the idle task still has status TaskIdle after
any successful exit from a reachable state. -/
theorem C7_exit_semantics (s : SchedState) (t : Task)
    (hl : mlookup s.tasks s.current_tid = some t) :
    (t.status = TaskIdle → exitTask s = none) ∧
    (t.status ≠ TaskIdle → exitTask s =
      reschedule
        { s with
            tasks := mupdate s.tasks s.current_tid
              (fun u => { u with status := TaskFinished }) }) ∧
    (Reachable s → ∀ s2, exitTask s = some s2 →
      statusOf s2.tasks s2.idle_tid = some TaskIdle) := by
  refine ⟨?_, ?_, ?_⟩
  · intro hid
    simp [exitTask, hl, hid]
  · intro hnid
    simp only [exitTask, hl, ne_eq, hnid, not_false_eq_true, if_true]
  · intro hr s2 h2
    exact (inv_exit (inv_reachable hr) h2).idleReg

theorem C7_witness :
    exitTask trace2 = reschedule
      { trace2 with
          tasks := mupdate trace2.tasks trace2.current_tid
            (fun u => { u with status := TaskFinished }) } ∧
    statusOf trace5.tasks trace5.idle_tid = some TaskIdle := by
  have h := C7_exit_semantics trace2 (demoTask TaskRunning) (by decide)
  exact ⟨h.2.1 (by decide), h.2.2 reachable_trace2 trace5 (by decide)⟩

/-- C8: each cleanup_tasks call pops at most one id from the finished
queue; a popped id that is still registered has its TCB removed from the
registry (its key is gone afterwards, releasing TCB and stack); a popped
id absent from the registry is not fatal and only the queue shrinks; an
empty queue leaves the state unchanged. -/
theorem C8_cleanup_semantics (s : SchedState) :
    (s.finished_tasks = [] → cleanup_tasks s = s) ∧
    (∀ id rest, s.finished_tasks = id :: rest →
      (∀ t, mlookup s.tasks id = some t →
        cleanup_tasks s =
          { s with
              finished_tasks := rest,
              tasks := mremove s.tasks id } ∧
        ((s.tasks.map Prod.fst).Nodup →
          mlookup (cleanup_tasks s).tasks id = none)) ∧
      (mlookup s.tasks id = none →
        cleanup_tasks s = { s with finished_tasks := rest })) := by
  refine ⟨?_, ?_⟩
  · intro hf
    simp [cleanup_tasks, hf]
  · intro id rest hf
    refine ⟨?_, ?_⟩
    · intro t hl
      have hc : cleanup_tasks s =
          { s with
              finished_tasks := rest,
              tasks := mremove s.tasks id } := by
        simp [cleanup_tasks, hf, hl]
      refine ⟨hc, ?_⟩
      intro hnd
      rw [hc]
      exact mlookup_mremove_self hnd
    · intro hl
      simp [cleanup_tasks, hf, hl]

theorem C8_witness :
    cleanup_tasks trace5 =
      { trace5 with
          finished_tasks := [],
          tasks := mremove trace5.tasks 1 } ∧
    mlookup (cleanup_tasks trace5).tasks 1 = none := by
  have h := ((C8_cleanup_semantics trace5).2 1 [] (by decide)).1
    (demoTask TaskInvalid) (by decide)
  exact ⟨h.1, h.2 (by decide)⟩

/-- C9: wakeup_task leaves the scheduler state unchanged for a TCB whose
status is not exactly Blocked; for a Blocked TCB it sets the status to
Ready and appends the id to the ready queue of its priority; and calling
wakeup_task twice in a row equals calling it once. -/
theorem C9_wakeup_semantics (s : SchedState) (tid : Nat) :
    (∀ t, mlookup s.tasks tid = some t → t.status ≠ TaskBlocked →
      wakeup_task s tid = some s) ∧
    (∀ t qs, mlookup s.tasks tid = some t → t.status = TaskBlocked →
      qpush s.ready_queues t.prio tid = some qs →
      wakeup_task s tid = some
        { s with
            ready_queues := qs,
            tasks := mupdate s.tasks tid
              (fun u => { u with status := TaskReady }) }) ∧
    (wakeup_task s tid).bind (fun s1 => wakeup_task s1 tid) = wakeup_task s tid := by
  refine ⟨?_, ?_, ?_⟩
  · intro t hl hnb
    simp [wakeup_task, hl, hnb]
  · intro t qs hl hb hq
    simp [wakeup_task, hl, hb, hq]
  · rcases hl : mlookup s.tasks tid with _ | t
    · simp [wakeup_task, hl]
    · by_cases hb : t.status = TaskBlocked
      · rcases hq : qpush s.ready_queues t.prio tid with _ | qs
        · simp [wakeup_task, hl, hb, hq]
        · have h1 : wakeup_task s tid = some
              { s with
                  ready_queues := qs,
                  tasks := mupdate s.tasks tid
                    (fun u => { u with status := TaskReady }) } := by
            simp [wakeup_task, hl, hb, hq]
          rw [h1]
          have h2 : mlookup (mupdate s.tasks tid
              (fun u => { u with status := TaskReady })) tid
              = some { t with status := TaskReady } := by
            rw [mlookup_mupdate_self, hl]
            rfl
          simp [wakeup_task, h2]
      · have h1 : wakeup_task s tid = some s := by
          simp [wakeup_task, hl, hb]
        rw [h1]
        simp [h1]

theorem C9_witness :
    wakeup_task trace3 1 = some trace4 ∧
    (wakeup_task trace3 1).bind (fun s1 => wakeup_task s1 1)
      = wakeup_task trace3 1 := by
  have h := C9_wakeup_semantics trace3 1
  constructor
  · have h2 := h.2.1 (demoTask TaskBlocked)
      ((List.replicate NO_PRIORITIES []).set 24 [1]) (by decide) (by decide)
      (by decide)
    exact h2.trans (by decide)
  · exact h.2.2

/-- C10: on every reachable state the idle task is registered with status
TaskIdle (no operation ever changes it), the idle task id never sits in
any ready queue, and whenever the idle task is current a dispatch
searches all priority levels. -/
theorem C10_idle_immutable (s : SchedState) (h : Reachable s) :
    statusOf s.tasks s.idle_tid = some TaskIdle ∧
    ¬ InQueues s.ready_queues s.idle_tid ∧
    (s.current_tid = s.idle_tid → ∀ t,
      mlookup s.tasks s.current_tid = some t →
      searchBound t = NO_PRIORITIES) := by
  have hInv := inv_reachable h
  refine ⟨hInv.idleReg, hInv.idleNotQueued, ?_⟩
  intro hci t ht
  rw [hci] at ht
  obtain ⟨u, hu, hust⟩ := statusOf_some_iff.mp hInv.idleReg
  rw [hu] at ht
  obtain rfl := Option.some.inj ht
  rw [searchBound, hust]
  simp

theorem C10_witness :
    statusOf initState.tasks initState.idle_tid = some TaskIdle ∧
    ¬ InQueues initState.ready_queues initState.idle_tid ∧
    (initState.current_tid = initState.idle_tid → ∀ t,
      mlookup initState.tasks initState.current_tid = some t →
      searchBound t = NO_PRIORITIES) :=
  C10_idle_immutable initState reachable_init

end EduOS
